import Mathlib

/-!
Verification of the sentinel_trend core: a shallow embedding of the
trend-signal derivation (`strategy/trend_sma.py`), the backtest simulator
(`backtest/engine.py`, `backtest/costs.py`), the performance metrics
(`backtest/metrics.py`) and the variant comparator (`research/runner.py`),
together with theorems settling the specification claims.

Modelling conventions:
* Python `datetime.date` is modelled by `Dat` (year, month, day), ordered
  lexicographically, exactly as Python orders dates.  For `cagr`, which only
  subtracts dates, dates are modelled by their ordinal number (`Int`).
* Python floats are modelled by exact rationals (`ℚ`), except `cagr` whose
  `**` is modelled over the reals (`Real.rpow`).
* Fallible Python code (raising `ValueError` / `KeyError` / `IndexError` /
  `ZeroDivisionError`) is modelled with `Except String`, carrying the
  exception message.
-/

namespace SentinelTrend

/-- A calendar date, as Python's `datetime.date`: compared lexicographically
by (year, month, day). -/
@[ext]
structure Dat where
  y : Int
  m : Int
  d : Int
deriving DecidableEq

/-- Python date ordering: lexicographic on (year, month, day). -/
def Dat.le (a b : Dat) : Prop :=
  a.y < b.y ∨ (a.y = b.y ∧ (a.m < b.m ∨ (a.m = b.m ∧ a.d ≤ b.d)))

instance : DecidableRel Dat.le := fun a b => by
  unfold Dat.le; infer_instance

instance : LinearOrder Dat where
  le := Dat.le
  le_refl a := by simp [Dat.le]
  le_trans a b c hab hbc := by simp only [Dat.le] at *; omega
  le_antisymm a b hab hba := by
    simp only [Dat.le] at hab hba; ext <;> omega
  le_total a b := by simp only [Dat.le]; omega
  decidableLE := inferInstanceAs (DecidableRel Dat.le)

theorem Dat.le_iff {a b : Dat} :
    a ≤ b ↔ a.y < b.y ∨ (a.y = b.y ∧ (a.m < b.m ∨ (a.m = b.m ∧ a.d ≤ b.d))) :=
  Iff.rfl

theorem Dat.lt_iff {a b : Dat} :
    a < b ↔ a.y < b.y ∨ (a.y = b.y ∧ (a.m < b.m ∨ (a.m = b.m ∧ a.d < b.d))) := by
  rw [lt_iff_le_not_le, Dat.le_iff, Dat.le_iff]
  omega

/-- The two tracked assets (`Literal["SPY", "BIL"]` in the source). -/
inductive Asset
  | SPY
  | BIL
deriving DecidableEq

/-- `TrendDecision` record from `strategy/trend_sma.py`. -/
structure TrendDecision where
  signal_date : Dat
  trade_date : Dat
  spy_close : ℚ
  sma_200 : ℚ
  target_asset : Asset
deriving DecidableEq

/-- `compute_sma(values, window)` from `strategy/trend_sma.py`:
`sum(values[-window:]) / window`, failing for non-positive window or
insufficient history.  `values[-window:]` is the trailing `window` elements,
i.e. `values.drop (values.length - window)`. -/
def compute_sma (values : List ℚ) (window : Int) : Except String ℚ :=
  if window ≤ 0 then Except.error "window must be positive"
  else if (values.length : Int) < window then
    Except.error "not enough values for window"
  else Except.ok ((values.drop (values.length - window.toNat)).sum / (window : ℚ))

/-- `decide_target(spy_close, sma)`: `"SPY" if spy_close > sma else "BIL"`. -/
def decide_target (spy_close sma : ℚ) : Asset :=
  if sma < spy_close then Asset.SPY else Asset.BIL

/-- The (year, month) pair of a date, as `(day.year, day.month)` in
`month_end_signal_dates`. -/
def monthOf (a : Dat) : Int × Int := (a.y, a.m)

/-- The loop of `month_end_signal_dates`: `last` is the `last_day` variable
(whose month is `last_month`); whenever the next day's month differs, the
previous `last_day` is appended; after the loop the final `last_day` is
appended. -/
def monthEndsGo (last : Dat) : List Dat → List Dat
  | [] => [last]
  | day :: rest =>
    if monthOf day ≠ monthOf last then last :: monthEndsGo day rest
    else monthEndsGo day rest

/-- `month_end_signal_dates(trading_days)` from `strategy/trend_sma.py`. -/
def month_end_signal_dates : List Dat → List Dat
  | [] => []
  | first :: rest => monthEndsGo first rest

/-- `next_trading_day(trading_days, d)`: first element of `trading_days`
strictly greater than `d`; `none` models the `ValueError` raised when no such
day exists. -/
def next_trading_day (trading_days : List Dat) (d : Dat) : Option Dat :=
  trading_days.find? (fun day => decide (d < day))

/-- The dictionary `{day: idx for idx, day in enumerate(trading_days)}`
looked up at `s`, with indices counted from `i`.  A Python dict keeps the
last-written value, so a later duplicate day overrides an earlier one. -/
def indexByDateFrom (s : Dat) (i : Nat) : List Dat → Option Nat
  | [] => none
  | day :: rest =>
    match indexByDateFrom s (i + 1) rest with
    | some j => some j
    | none => if day = s then some i else none

/-- `index_by_date.get(signal_date)` in `make_trend_decisions`. -/
def indexByDate (trading_days : List Dat) (s : Dat) : Option Nat :=
  indexByDateFrom s 0 trading_days

/-- The loop of `make_trend_decisions` over the month-end signal dates.
For each signal date: skip when the index is missing, when `idx + 1 < window`
or when `idx` is the last index; otherwise compute the SMA of the trailing
window of trading days ending at the signal date, look up the close, find the
next trading day, and emit a decision. -/
def mtdGo (trading_days : List Dat) (price : Dat → ℚ) (window : Int) :
    List Dat → Except String (List TrendDecision)
  | [] => Except.ok []
  | s :: rest =>
    match indexByDate trading_days s with
    | none => mtdGo trading_days price window rest
    | some idx =>
      if (idx : Int) + 1 < window then mtdGo trading_days price window rest
      else if (trading_days.length : Int) - 1 ≤ (idx : Int) then
        mtdGo trading_days price window rest
      else
        let window_days := (trading_days.take (idx + 1)).drop (idx + 1 - window.toNat)
        let window_values := window_days.map price
        match compute_sma window_values window with
        | Except.error e => Except.error e
        | Except.ok sma =>
          match next_trading_day trading_days s with
          | none => Except.error "no next trading day available"
          | some trade_date =>
            match mtdGo trading_days price window rest with
            | Except.error e => Except.error e
            | Except.ok ds =>
              Except.ok ({ signal_date := s, trade_date := trade_date,
                           spy_close := price s, sma_200 := sma,
                           target_asset := decide_target (price s) sma } :: ds)

/-- `make_trend_decisions(trading_days, spy_adj_close, window)` from
`strategy/trend_sma.py`.  The price mapping is total (`spy_adj_close[day]`
for days drawn from `trading_days`, which the claims assume it covers). -/
def make_trend_decisions (trading_days : List Dat) (price : Dat → ℚ)
    (window : Int) : Except String (List TrendDecision) :=
  if window ≤ 0 then Except.error "window must be positive"
  else mtdGo trading_days price window (month_end_signal_dates trading_days)

/-- `apply_cost(value, cost_bps)` from `backtest/costs.py`. -/
def apply_cost (value cost_bps : ℚ) : ℚ :=
  let cost_rate := cost_bps / 10000
  value * (1 - cost_rate)

/-- A `Trade` dict appended by `run_backtest` on an asset switch. -/
structure Trade where
  date : Dat
  from_asset : Asset
  to_asset : Asset
  pre_value : ℚ
  post_value : ℚ
  cost_bps : ℚ
  cost_amount : ℚ
deriving DecidableEq

/-- `BacktestResult` from `backtest/engine.py`. -/
structure BacktestResult where
  start_date : Dat
  end_date : Dat
  initial_value : ℚ
  final_value : ℚ
  equity_curve : List (Dat × ℚ)
  holdings : List (Dat × Asset)
  trades : List Trade
deriving DecidableEq

/-- The mutable loop state of `run_backtest`: running value, currently held
asset, previous processed day, and the accumulating trades, equity curve and
holdings lists. -/
structure BtState where
  value : ℚ
  currentAsset : Asset
  prevDay : Option Dat
  trades : List Trade
  equityCurve : List (Dat × ℚ)
  holdings : List (Dat × Asset)
deriving DecidableEq

/-- The switch block of `run_backtest` (engine.py lines 63-80): apply the
per-side cost twice and build the trade record.  Returns the post-switch
value and the trade. -/
def executeSwitch (day : Dat) (from_asset to_asset : Asset)
    (value cost_bps : ℚ) : ℚ × Trade :=
  let pre_value := value
  let v1 := apply_cost value cost_bps
  let v2 := apply_cost v1 cost_bps
  (v2, { date := day, from_asset := from_asset, to_asset := to_asset,
         pre_value := pre_value, post_value := v2, cost_bps := cost_bps,
         cost_amount := pre_value - v2 })

/-- The daily return compounding of `run_backtest`: on the first processed
day (`prevDay = none`) the value is unchanged; otherwise it is multiplied by
`price_map[day] / price_map[prev_day]`, failing when either price is missing
from the held asset's series. -/
def compoundDaily (price_map : List (Dat × ℚ)) (prevDay : Option Dat)
    (day : Dat) (value : ℚ) : Except String ℚ :=
  match prevDay with
  | none => Except.ok value
  | some prev =>
    match price_map.lookup prev, price_map.lookup day with
    | some pPrev, some pDay => Except.ok (value * (pDay / pPrev))
    | _, _ => Except.error "missing price for held asset"

/-- The trade-execution block of the `run_backtest` loop (after daily
compounding): when the day is some decision's trade date and that (first
matching) decision's target differs from the held asset, switch with
two-sided cost and append the trade; otherwise leave value, asset and ledger
unchanged.  Returns (new value, new asset, new ledger). -/
def tradeStep (decisions : List TrendDecision) (tradeDates : List Dat)
    (cost_bps : ℚ) (day : Dat) (currentAsset : Asset) (trades : List Trade)
    (v : ℚ) : ℚ × Asset × List Trade :=
  if day ∈ tradeDates then
    match decisions.find? (fun dd => decide (dd.trade_date = day)) with
    | some decision =>
      if decision.target_asset ≠ currentAsset then
        let sw := executeSwitch day currentAsset decision.target_asset v cost_bps
        (sw.1, decision.target_asset, trades ++ [sw.2])
      else (v, currentAsset, trades)
    | none => (v, currentAsset, trades)
  else (v, currentAsset, trades)

/-- One iteration of the `for day in trading_days` loop of `run_backtest`:
skip days before `start_date`; compound the held asset's daily return when a
previous day exists (failing when a price is missing); switch assets (with
two-sided cost) when the day is a decision's trade date whose target differs;
append to the equity curve and holdings. -/
def btStep (pricesSpy pricesBil : List (Dat × ℚ))
    (decisions : List TrendDecision) (tradeDates : List Dat) (cost_bps : ℚ)
    (start_date : Dat) (s : BtState) (day : Dat) : Except String BtState :=
  if day < start_date then Except.ok s
  else
    match compoundDaily (if s.currentAsset = Asset.SPY then pricesSpy else pricesBil)
        s.prevDay day s.value with
    | Except.error e => Except.error e
    | Except.ok v =>
      let next := tradeStep decisions tradeDates cost_bps day s.currentAsset s.trades v
      Except.ok { value := next.1, currentAsset := next.2.1, prevDay := some day,
                  trades := next.2.2,
                  equityCurve := s.equityCurve ++ [(day, next.1)],
                  holdings := s.holdings ++ [(day, next.2.1)] }

/-- The full `for day in trading_days` loop of `run_backtest`. -/
def btLoop (pricesSpy pricesBil : List (Dat × ℚ))
    (decisions : List TrendDecision) (tradeDates : List Dat) (cost_bps : ℚ)
    (start_date : Dat) : List Dat → BtState → Except String BtState
  | [], s => Except.ok s
  | day :: rest, s =>
    match btStep pricesSpy pricesBil decisions tradeDates cost_bps start_date s day with
    | Except.error e => Except.error e
    | Except.ok s1 => btLoop pricesSpy pricesBil decisions tradeDates cost_bps start_date rest s1

/-- `start_date = min(trade_dates)` in `run_backtest` (junk value for the
empty list, which `run_backtest` rejects first). -/
def startDateOf : List TrendDecision → Dat
  | [] => ⟨0, 0, 0⟩
  | d :: rest => (rest.map (·.trade_date)).foldl min d.trade_date

/-- `first_decision = min(decisions, key=lambda d: d.trade_date)` in
`run_backtest`: Python `min` keeps the earliest list element among ties
(junk value for the empty list, which `run_backtest` rejects first). -/
def firstDecisionOf : List TrendDecision → TrendDecision
  | [] => { signal_date := ⟨0, 0, 0⟩, trade_date := ⟨0, 0, 0⟩, spy_close := 0,
            sma_200 := 0, target_asset := Asset.BIL }
  | d :: rest =>
    rest.foldl (fun best dd => if dd.trade_date < best.trade_date then dd else best) d

/-- `run_backtest(trading_days, prices_by_asset, decisions, initial_value,
cost_bps)` from `backtest/engine.py`.  Checks follow the source order:
empty decisions, missing SPY/BIL series, `trading_days[-1]` (an `IndexError`
on an empty calendar), `start_date not in trading_days`, then the daily loop
and the final empty-curve check. -/
def run_backtest (trading_days : List Dat)
    (prices_by_asset : List (String × List (Dat × ℚ)))
    (decisions : List TrendDecision) (initial_value cost_bps : ℚ) :
    Except String BacktestResult :=
  match decisions with
  | [] => Except.error "decisions must not be empty"
  | d0 :: drest =>
    match prices_by_asset.lookup "SPY", prices_by_asset.lookup "BIL" with
    | some pricesSpy, some pricesBil =>
      let tradeDates := (d0 :: drest).map (·.trade_date)
      let start_date := startDateOf (d0 :: drest)
      match trading_days.getLast? with
      | none => Except.error "list index out of range"
      | some _end_date =>
        if start_date ∈ trading_days then
          let first_decision := firstDecisionOf (d0 :: drest)
          let init : BtState :=
            { value := initial_value, currentAsset := first_decision.target_asset,
              prevDay := none, trades := [], equityCurve := [], holdings := [] }
          match btLoop pricesSpy pricesBil (d0 :: drest) tradeDates cost_bps
              start_date trading_days init with
          | Except.error e => Except.error e
          | Except.ok sFinal =>
            match sFinal.equityCurve with
            | [] => Except.error "equity_curve is empty"
            | c0 :: crest =>
              Except.ok
                { start_date := c0.1,
                  end_date := ((c0 :: crest).getLast (List.cons_ne_nil c0 crest)).1,
                  initial_value := initial_value,
                  final_value := ((c0 :: crest).getLast (List.cons_ne_nil c0 crest)).2,
                  equity_curve := c0 :: crest,
                  holdings := sFinal.holdings,
                  trades := sFinal.trades }
        else Except.error "start_date not in trading_days"
    | _, _ => Except.error "prices_by_asset must contain SPY and BIL"

/-- The loop of `max_drawdown` (`backtest/metrics.py`): raise the peak when
the value exceeds it, then record the most negative drawdown seen so far. -/
def mddGo (peak max_dd : ℚ) : List ℚ → ℚ
  | [] => max_dd
  | v :: rest =>
    let peak1 := if peak < v then v else peak
    let drawdown := (v - peak1) / peak1
    mddGo peak1 (if drawdown < max_dd then drawdown else max_dd) rest

/-- `max_drawdown(equity_curve)` from `backtest/metrics.py`: the peak starts
at the first point's value and the loop runs over every point (the first
included); empty input fails. -/
def max_drawdown (equity_curve : List (Dat × ℚ)) : Except String ℚ :=
  match equity_curve with
  | [] => Except.error "equity_curve must not be empty"
  | p0 :: _ => Except.ok (mddGo p0.2 0 (equity_curve.map (·.2)))

/-- `cagr(equity_curve)` from `backtest/metrics.py`, over the reals; dates
are modelled by their ordinal numbers so that Python's
`(end_date - start_date).days` is plain subtraction.  A zero start value is
Python's `ZeroDivisionError`; `**` is modelled by `Real.rpow`. -/
noncomputable def cagr (equity_curve : List (Int × ℝ)) : Except String ℝ :=
  if equity_curve.length < 2 then
    Except.error "equity_curve must have at least two points"
  else
    match equity_curve.head?, equity_curve.getLast? with
    | some (start_date, start_value), some (end_date, end_value) =>
      let days : Int := end_date - start_date
      if days ≤ 0 then Except.error "equity_curve must span positive time"
      else if start_value = 0 then Except.error "float division by zero"
      else
        let years : ℝ := (days : ℝ) / 365.25
        Except.ok ((end_value / start_value) ^ ((1 : ℝ) / years) - 1)
    | _, _ => Except.error "unreachable"

/-- One per-window record of `compare_variants` (`research/runner.py`),
restricted to the fields the comparison logic reads: the window and the two
metrics entering the robustness verdict. -/
structure VariantResult where
  window : Int
  cagrValue : ℚ
  maxDrawdownValue : ℚ
deriving DecidableEq

/-- The comparison dict returned by `compare_variants`. -/
structure Comparison where
  results : List VariantResult
  robust : Bool
  reasons : List String
deriving DecidableEq

/-- Reason string for a CAGR spread beyond 2 percentage points. -/
def cagrReason : String := "CAGR range exceeds 2% absolute."

/-- Reason string for a max-drawdown spread beyond 5 percentage points. -/
def ddReason : String := "Max drawdown range exceeds 5% absolute."

/-- The pure tail of `compare_variants` (`research/runner.py` lines 96-114),
taking the per-variant records in place of the I/O-performing
`run_variant` calls: sort by window (Python `list.sort` is a stable sort),
compute the CAGR and drawdown ranges (Python `max()` / `min()` fail on an
empty sequence), build the reason list and the verdict. -/
def compare_variants_core (variantResults : List VariantResult) :
    Except String Comparison :=
  let sorted := List.insertionSort (fun a b => a.window ≤ b.window) variantResults
  match sorted with
  | [] => Except.error "max() arg is an empty sequence"
  | r :: rs =>
    let cagr_range :=
      (rs.map (·.cagrValue)).foldl max r.cagrValue -
        (rs.map (·.cagrValue)).foldl min r.cagrValue
    let dd_range :=
      (rs.map (·.maxDrawdownValue)).foldl max r.maxDrawdownValue -
        (rs.map (·.maxDrawdownValue)).foldl min r.maxDrawdownValue
    let reasons :=
      (if 1 / 50 < |cagr_range| then [cagrReason] else []) ++
        (if 1 / 20 < |dd_range| then [ddReason] else [])
    Except.ok { results := r :: rs, robust := reasons.length = 0,
                reasons := reasons }

instance {ε α : Type} [DecidableEq ε] [DecidableEq α] : DecidableEq (Except ε α) :=
  fun a b =>
    match a, b with
    | Except.error e1, Except.error e2 => decidable_of_iff (e1 = e2) (by simp)
    | Except.ok x, Except.ok y => decidable_of_iff (x = y) (by simp)
    | Except.error _, Except.ok _ => isFalse (by simp)
    | Except.ok _, Except.error _ => isFalse (by simp)

/-- C5: `decide_target` returns the risk asset exactly when the close is
strictly greater than the moving average and the safe asset otherwise; a tie
(`decide_target 100 100`) goes to the safe asset, while
`decide_target 100.01 100` picks the risk asset. -/
theorem decide_target_spec :
    (∀ close sma : ℚ,
      (decide_target close sma = Asset.SPY ↔ sma < close) ∧
      (decide_target close sma = Asset.BIL ↔ ¬sma < close)) ∧
    decide_target 100 100 = Asset.BIL ∧
    decide_target (10001 / 100) 100 = Asset.SPY := by
  refine ⟨fun close sma => ?_, by norm_num [decide_target], by norm_num [decide_target]⟩
  unfold decide_target
  split <;> simp_all

/-- C2: on a trade date whose decision targets a different asset than the one
held, the loop body of `run_backtest` multiplies the portfolio value by
`(1 - cost_bps/10000)` exactly twice (once per leg) and records a trade whose
`post_value` is the value after both legs and whose
`cost_amount = pre_value - post_value`; with `cost_bps = 10` and
`pre_value = 100` the recorded `cost_amount` is `100 * (1 - 0.999^2)`.
(The state `s` has `prevDay = none`, isolating the switch from the daily
return compounding that otherwise precedes it.) -/
theorem run_backtest_switch_cost (pricesSpy pricesBil : List (Dat × ℚ))
    (decisions : List TrendDecision) (cost_bps : ℚ) (start_date day : Dat)
    (s : BtState) (dec : TrendDecision)
    (hlt : ¬day < start_date) (hprev : s.prevDay = none)
    (hmem : day ∈ decisions.map (·.trade_date))
    (hfind : decisions.find? (fun dd => decide (dd.trade_date = day)) = some dec)
    (hdiff : dec.target_asset ≠ s.currentAsset) :
    btStep pricesSpy pricesBil decisions (decisions.map (·.trade_date)) cost_bps
        start_date s day =
      Except.ok
        { value := s.value * (1 - cost_bps / 10000) ^ 2,
          currentAsset := dec.target_asset,
          prevDay := some day,
          trades := s.trades ++
            [{ date := day, from_asset := s.currentAsset,
               to_asset := dec.target_asset, pre_value := s.value,
               post_value := s.value * (1 - cost_bps / 10000) ^ 2,
               cost_bps := cost_bps,
               cost_amount := s.value - s.value * (1 - cost_bps / 10000) ^ 2 }],
          equityCurve := s.equityCurve ++ [(day, s.value * (1 - cost_bps / 10000) ^ 2)],
          holdings := s.holdings ++ [(day, dec.target_asset)] } ∧
    (executeSwitch day s.currentAsset dec.target_asset s.value cost_bps).2.cost_amount =
      (executeSwitch day s.currentAsset dec.target_asset s.value cost_bps).2.pre_value -
        (executeSwitch day s.currentAsset dec.target_asset s.value cost_bps).2.post_value ∧
    (executeSwitch ⟨2024, 1, 2⟩ Asset.SPY Asset.BIL 100 10).2.cost_amount =
      100 * (1 - (999 / 1000 : ℚ) ^ 2) := by
  refine ⟨?_, by simp [executeSwitch, apply_cost], by norm_num [executeSwitch, apply_cost]⟩
  unfold btStep
  rw [if_neg hlt, hprev]
  simp only [compoundDaily, tradeStep, hmem, if_true, hfind, if_pos hdiff,
    executeSwitch, apply_cost]
  refine congrArg Except.ok ?_
  congr 1 <;> ring_nf

/-- Concrete loop state for the switch-cost scenario: 100 units held in SPY,
nothing processed yet. -/
def switchState : BtState :=
  { value := 100, currentAsset := Asset.SPY, prevDay := none, trades := [],
    equityCurve := [], holdings := [] }

/-- Concrete decision switching into BIL on 2024-01-02. -/
def switchDecision : TrendDecision :=
  { signal_date := ⟨2024, 1, 1⟩, trade_date := ⟨2024, 1, 2⟩, spy_close := 10,
    sma_200 := 20, target_asset := Asset.BIL }

/-- Witness for `run_backtest_switch_cost`: the switch scenario realized on a
concrete state and decision. -/
theorem run_backtest_switch_cost_witness :
    (¬(⟨2024, 1, 2⟩ : Dat) < (⟨2024, 1, 2⟩ : Dat)) ∧
    switchState.prevDay = none ∧
    (⟨2024, 1, 2⟩ : Dat) ∈ [switchDecision].map (·.trade_date) ∧
    [switchDecision].find? (fun dd => decide (dd.trade_date = ⟨2024, 1, 2⟩)) =
      some switchDecision ∧
    switchDecision.target_asset ≠ switchState.currentAsset ∧
    (btStep [] [] [switchDecision] ([switchDecision].map (·.trade_date)) 10
        ⟨2024, 1, 2⟩ switchState ⟨2024, 1, 2⟩ =
      Except.ok
        { value := switchState.value * (1 - 10 / 10000) ^ 2,
          currentAsset := switchDecision.target_asset,
          prevDay := some ⟨2024, 1, 2⟩,
          trades := switchState.trades ++
            [{ date := ⟨2024, 1, 2⟩, from_asset := switchState.currentAsset,
               to_asset := switchDecision.target_asset,
               pre_value := switchState.value,
               post_value := switchState.value * (1 - 10 / 10000) ^ 2,
               cost_bps := 10,
               cost_amount := switchState.value -
                 switchState.value * (1 - 10 / 10000) ^ 2 }],
          equityCurve := switchState.equityCurve ++
            [(⟨2024, 1, 2⟩, switchState.value * (1 - 10 / 10000) ^ 2)],
          holdings := switchState.holdings ++
            [(⟨2024, 1, 2⟩, switchDecision.target_asset)] } ∧
      (executeSwitch ⟨2024, 1, 2⟩ switchState.currentAsset
          switchDecision.target_asset switchState.value 10).2.cost_amount =
        (executeSwitch ⟨2024, 1, 2⟩ switchState.currentAsset
            switchDecision.target_asset switchState.value 10).2.pre_value -
          (executeSwitch ⟨2024, 1, 2⟩ switchState.currentAsset
              switchDecision.target_asset switchState.value 10).2.post_value ∧
      (executeSwitch ⟨2024, 1, 2⟩ Asset.SPY Asset.BIL 100 10).2.cost_amount =
        100 * (1 - (999 / 1000 : ℚ) ^ 2)) :=
  ⟨by decide, rfl, by decide, by decide, by decide,
    run_backtest_switch_cost [] [] [switchDecision] 10 ⟨2024, 1, 2⟩ ⟨2024, 1, 2⟩
      switchState switchDecision (by decide) rfl (by decide) (by decide) (by decide)⟩

/-- The drawdown at each curve point, per the specification: the running peak
is the maximum of the values seen so far (seeded at the first value `v0`),
and the drawdown at each point is `(value - peak) / peak`. -/
def drawdownList (v0 : ℚ) (values : List ℚ) : List ℚ :=
  List.zipWith (fun v p => (v - p) / p) values ((values.scanl max v0).drop 1)

theorem drawdownList_cons (p v : ℚ) (rest : List ℚ) :
    drawdownList p (v :: rest) =
      ((v - max p v) / max p v) :: drawdownList (max p v) rest := by
  cases rest <;> simp [drawdownList, List.scanl]

theorem mddGo_eq_foldl (values : List ℚ) :
    ∀ peak max_dd : ℚ,
      mddGo peak max_dd values = (drawdownList peak values).foldl min max_dd := by
  induction values with
  | nil => intro peak max_dd; simp [mddGo, drawdownList]
  | cons v rest ih =>
    intro peak max_dd
    have hpeak : (if peak < v then v else peak) = max peak v := by
      rcases lt_or_ge peak v with h | h
      · rw [if_pos h, max_eq_right h.le]
      · rw [if_neg (not_lt.mpr h), max_eq_left h]
    have hmin : ∀ dd : ℚ, (if dd < max_dd then dd else max_dd) = min max_dd dd := by
      intro dd
      rcases lt_or_ge dd max_dd with h | h
      · rw [if_pos h, min_eq_right h.le]
      · rw [if_neg (not_lt.mpr h), min_eq_left h]
    rw [drawdownList_cons]
    simp only [mddGo, hpeak, hmin, List.foldl_cons]
    exact ih (max peak v) (min max_dd ((v - max peak v) / max peak v))

/-- C8: for a non-empty equity curve, `max_drawdown` returns the fold by
`min`, seeded at 0, of the per-point drawdowns `(value - peak) / peak`
against the running peak — i.e. the most negative drawdown observed, or 0
when no value dips below a prior peak; it fails on empty input; and on the
curve with values `[100, 120, 90, 110]` it returns exactly `-1/4`. -/
theorem max_drawdown_spec :
    (∀ (p0 : Dat × ℚ) (rest : List (Dat × ℚ)),
      max_drawdown (p0 :: rest) =
        Except.ok ((drawdownList p0.2 ((p0 :: rest).map (·.2))).foldl min 0)) ∧
    max_drawdown ([] : List (Dat × ℚ)) =
      Except.error "equity_curve must not be empty" ∧
    max_drawdown [(⟨2024, 1, 1⟩, 100), (⟨2024, 1, 2⟩, 120), (⟨2024, 1, 3⟩, 90),
        (⟨2024, 1, 4⟩, 110)] = Except.ok (-(1 / 4)) := by
  refine ⟨fun p0 rest => ?_, rfl, by norm_num [max_drawdown, mddGo]⟩
  simp only [max_drawdown]
  rw [mddGo_eq_foldl]

theorem month_between {a b e : Dat} (hab : a < b) (hbe : b ≤ e)
    (hea : monthOf e = monthOf a) : monthOf b = monthOf a := by
  rw [Dat.lt_iff] at hab
  rw [Dat.le_iff] at hbe
  simp only [monthOf, Prod.mk.injEq] at *
  omega

theorem monthEndsGo_ne_nil : ∀ (l : List Dat) (a : Dat), monthEndsGo a l ≠ [] := by
  intro l
  induction l with
  | nil => intro a; simp [monthEndsGo]
  | cons b l' ih =>
    intro a
    unfold monthEndsGo
    split
    · simp
    · exact ih b

theorem monthEndsGo_getLast? :
    ∀ (l : List Dat) (a : Dat), (monthEndsGo a l).getLast? = (a :: l).getLast? := by
  intro l
  induction l with
  | nil => intro a; rfl
  | cons b l' ih =>
    intro a
    rw [List.getLast?_cons_cons]
    unfold monthEndsGo
    split
    · obtain ⟨x, xs, hx⟩ := List.exists_cons_of_ne_nil (monthEndsGo_ne_nil l' b)
      rw [hx, List.getLast?_cons_cons, ← hx, ih b]
    · exact ih b

theorem monthEndsGo_sorted_filter :
    ∀ (l : List Dat) (a : Dat), List.Sorted (· < ·) (a :: l) →
      monthEndsGo a l = (a :: l).filter
        (fun x => decide (∀ e ∈ a :: l, monthOf e = monthOf x → e ≤ x)) := by
  intro l
  induction l with
  | nil =>
    intro a _
    simp [monthEndsGo, List.filter_cons]
  | cons b l' ih =>
    intro a hsorted
    rw [List.sorted_cons] at hsorted
    obtain ⟨hal, hsorted'⟩ := hsorted
    have hab : a < b := hal b (List.mem_cons_self b l')
    have hcongr : ∀ x ∈ b :: l',
        (decide (∀ e ∈ a :: b :: l', monthOf e = monthOf x → e ≤ x) : Bool) =
          decide (∀ e ∈ b :: l', monthOf e = monthOf x → e ≤ x) := by
      intro x hx
      rw [decide_eq_decide]
      constructor
      · intro h e he hme
        exact h e (List.mem_cons_of_mem a he) hme
      · intro h e he hme
        rcases List.mem_cons.mp he with rfl | he'
        · exact (hal x hx).le
        · exact h e he' hme
    have hPa : (decide (∀ e ∈ a :: b :: l', monthOf e = monthOf a → e ≤ a) : Bool) =
        decide (monthOf b ≠ monthOf a) := by
      rw [decide_eq_decide]
      constructor
      · intro h hm
        exact absurd (h b (List.mem_cons_of_mem a (List.mem_cons_self b l')) hm)
          (not_le.mpr hab)
      · intro hne e he hme
        rcases List.mem_cons.mp he with rfl | he'
        · exact le_refl e
        · rcases List.mem_cons.mp he' with rfl | he''
          · exact absurd hme hne
          · exact absurd (month_between hab ((List.sorted_cons.mp hsorted').1 e he'').le hme) hne
    unfold monthEndsGo
    rw [List.filter_cons, hPa, List.filter_congr hcongr, ← ih b hsorted']
    by_cases hm : monthOf b = monthOf a
    · simp [hm]
    · simp [hm]

/-- C4: on a chronologically (strictly) sorted list of trading days,
`month_end_signal_dates` keeps exactly those days that are the last trading
day of their (year, month) pair, in order; the final day of the series is
always its last output entry even if its month is incomplete; empty input
gives empty output; and on `[Jan30, Jan31, Feb1, Feb28, Mar1, Mar31]` it
returns `[Jan31, Feb28, Mar31]`. -/
theorem month_end_signal_dates_spec :
    (∀ trading_days : List Dat, List.Sorted (· < ·) trading_days →
      month_end_signal_dates trading_days = trading_days.filter
        (fun x => decide (∀ e ∈ trading_days, monthOf e = monthOf x → e ≤ x))) ∧
    (∀ trading_days : List Dat,
      (month_end_signal_dates trading_days).getLast? = trading_days.getLast?) ∧
    month_end_signal_dates [] = [] ∧
    month_end_signal_dates [⟨2024, 1, 30⟩, ⟨2024, 1, 31⟩, ⟨2024, 2, 1⟩,
        ⟨2024, 2, 28⟩, ⟨2024, 3, 1⟩, ⟨2024, 3, 31⟩] =
      [⟨2024, 1, 31⟩, ⟨2024, 2, 28⟩, ⟨2024, 3, 31⟩] := by
  refine ⟨fun td hs => ?_, fun td => ?_, rfl, by decide⟩
  · cases td with
    | nil => rfl
    | cons a l => exact monthEndsGo_sorted_filter l a hs
  · cases td with
    | nil => rfl
    | cons a l => exact monthEndsGo_getLast? l a

/-- Witness for `month_end_signal_dates_spec`: its sortedness hypothesis
discharged on the six-day example calendar. -/
theorem month_end_signal_dates_spec_witness :
    month_end_signal_dates [⟨2024, 1, 30⟩, ⟨2024, 1, 31⟩, ⟨2024, 2, 1⟩,
        ⟨2024, 2, 28⟩, ⟨2024, 3, 1⟩, ⟨2024, 3, 31⟩] =
      List.filter
        (fun x => decide (∀ e ∈ [(⟨2024, 1, 30⟩ : Dat), ⟨2024, 1, 31⟩, ⟨2024, 2, 1⟩,
          ⟨2024, 2, 28⟩, ⟨2024, 3, 1⟩, ⟨2024, 3, 31⟩], monthOf e = monthOf x → e ≤ x))
        [⟨2024, 1, 30⟩, ⟨2024, 1, 31⟩, ⟨2024, 2, 1⟩, ⟨2024, 2, 28⟩,
          ⟨2024, 3, 1⟩, ⟨2024, 3, 31⟩] :=
  month_end_signal_dates_spec.1 _ (by decide)

/-- C1 (amended): on a curve of two points 365 days apart whose second value
is twice the first (positive) value, `cagr` returns `2 ^ (365.25/365) - 1`:
the code computes `(end/start) ** (1/years)` with `years = days/365.25`, so
the exponent for a 365-day span is `365.25/365`, not `365/365.25` as the
claim states. -/
theorem cagr_doubling (d : Int) (v : ℝ) (hv : 0 < v) :
    cagr [(d, v), (d + 365, 2 * v)] =
      Except.ok ((2 : ℝ) ^ ((365.25 : ℝ) / 365) - 1) := by
  unfold cagr
  simp only [List.length_cons, List.length_nil, List.head?_cons,
    List.getLast?_cons_cons, List.getLast?_singleton, add_sub_cancel_left]
  norm_num
  rw [if_neg (by positivity : ¬v = 0)]
  rw [mul_div_assoc, div_self hv.ne', mul_one]

/-- C1 counterexample: at the concrete two-point curve doubling over 365
days, `cagr` does not return the claimed `2 ^ (365/365.25) - 1`: the code's
exponent is the reciprocal `365.25/365`, and the two real numbers differ. -/
theorem cagr_claim_counterexample :
    cagr [((0 : Int), (100 : ℝ)), (365, 200)] ≠
      Except.ok ((2 : ℝ) ^ ((365 : ℝ) / 365.25) - 1) := by
  have h := cagr_doubling 0 100 (by norm_num)
  norm_num at h
  rw [h]
  intro hcontra
  norm_num at hcontra
  have hlt : (2 : ℝ) ^ ((1460 : ℝ) / 1461) < (2 : ℝ) ^ ((1461 : ℝ) / 1460) := by
    rw [Real.rpow_lt_rpow_left_iff (by norm_num : (1 : ℝ) < 2)]
    norm_num
  exact absurd hcontra hlt.ne'

/-- Witness for `cagr_doubling`: its positivity hypothesis discharged at
`v = 100`, `d = 7`. -/
theorem cagr_doubling_witness :
    (0 : ℝ) < 100 ∧
      cagr [((7 : Int), (100 : ℝ)), (7 + 365, 2 * 100)] =
        Except.ok ((2 : ℝ) ^ ((365.25 : ℝ) / 365) - 1) :=
  ⟨by norm_num, cagr_doubling 7 100 (by norm_num)⟩

section FoldOrder

variable {α : Type} [LinearOrder α]

theorem foldl_max_init_le (l : List α) : ∀ a : α, a ≤ l.foldl max a := by
  induction l with
  | nil => intro a; simp
  | cons x xs ih =>
    intro a
    exact le_trans (le_max_left a x) (ih (max a x))

theorem foldl_max_le_of_mem (l : List α) :
    ∀ (a x : α), x ∈ l → x ≤ l.foldl max a := by
  induction l with
  | nil => intro a x hx; cases hx
  | cons y ys ih =>
    intro a x hx
    rcases List.mem_cons.mp hx with rfl | h
    · exact le_trans (le_max_right a x) (foldl_max_init_le ys (max a x))
    · exact ih (max a y) x h

theorem foldl_max_mem (l : List α) : ∀ a : α, l.foldl max a ∈ a :: l := by
  induction l with
  | nil => intro a; simp
  | cons x xs ih =>
    intro a
    rw [List.foldl_cons]
    rcases List.mem_cons.mp (ih (max a x)) with heq | hm
    · rcases max_choice a x with h | h <;> rw [heq, h]
      · exact List.mem_cons_self a (x :: xs)
      · exact List.mem_cons_of_mem a (List.mem_cons_self x xs)
    · exact List.mem_cons_of_mem a (List.mem_cons_of_mem x hm)

theorem le_foldl_min_init (l : List α) : ∀ a : α, l.foldl min a ≤ a := by
  induction l with
  | nil => intro a; simp
  | cons x xs ih =>
    intro a
    exact le_trans (ih (min a x)) (min_le_left a x)

theorem foldl_min_le_of_mem (l : List α) :
    ∀ (a x : α), x ∈ l → l.foldl min a ≤ x := by
  induction l with
  | nil => intro a x hx; cases hx
  | cons y ys ih =>
    intro a x hx
    rcases List.mem_cons.mp hx with rfl | h
    · exact le_trans (le_foldl_min_init ys (min a x)) (min_le_right a x)
    · exact ih (min a y) x h

theorem foldl_min_mem (l : List α) : ∀ a : α, l.foldl min a ∈ a :: l := by
  induction l with
  | nil => intro a; simp
  | cons x xs ih =>
    intro a
    rw [List.foldl_cons]
    rcases List.mem_cons.mp (ih (min a x)) with heq | hm
    · rcases min_choice a x with h | h <;> rw [heq, h]
      · exact List.mem_cons_self a (x :: xs)
      · exact List.mem_cons_of_mem a (List.mem_cons_self x xs)
    · exact List.mem_cons_of_mem a (List.mem_cons_of_mem x hm)

theorem foldl_min_le_foldl_max (l : List α) (a : α) :
    l.foldl min a ≤ l.foldl max a :=
  le_trans (le_foldl_min_init l a) (foldl_max_init_le l a)

end FoldOrder

theorem fold_range_le_iff (x0 : ℚ) (xs : List ℚ) (c : ℚ) :
    xs.foldl max x0 - xs.foldl min x0 ≤ c ↔
      ∀ a ∈ x0 :: xs, ∀ b ∈ x0 :: xs, a - b ≤ c := by
  constructor
  · intro h a ha b hb
    have hale : a ≤ xs.foldl max x0 := by
      rcases List.mem_cons.mp ha with rfl | ha'
      · exact foldl_max_init_le xs a
      · exact foldl_max_le_of_mem xs x0 a ha'
    have hble : xs.foldl min x0 ≤ b := by
      rcases List.mem_cons.mp hb with rfl | hb'
      · exact le_foldl_min_init xs b
      · exact foldl_min_le_of_mem xs x0 b hb'
    linarith
  · intro h
    exact h _ (foldl_max_mem xs x0) _ (foldl_min_mem xs x0)

theorem lt_fold_range_iff (x0 : ℚ) (xs : List ℚ) (c : ℚ) :
    c < |xs.foldl max x0 - xs.foldl min x0| ↔
      ∃ a ∈ x0 :: xs, ∃ b ∈ x0 :: xs, c < a - b := by
  rw [abs_of_nonneg (by linarith [foldl_min_le_foldl_max xs x0])]
  constructor
  · intro h
    exact ⟨_, foldl_max_mem xs x0, _, foldl_min_mem xs x0, h⟩
  · rintro ⟨a, ha, b, hb, hab⟩
    have hale : a ≤ xs.foldl max x0 := by
      rcases List.mem_cons.mp ha with rfl | ha'
      · exact foldl_max_init_le xs a
      · exact foldl_max_le_of_mem xs x0 a ha'
    have hble : xs.foldl min x0 ≤ b := by
      rcases List.mem_cons.mp hb with rfl | hb'
      · exact le_foldl_min_init xs b
      · exact foldl_min_le_of_mem xs x0 b hb'
    linarith

instance : IsTotal VariantResult (fun a b => a.window ≤ b.window) :=
  ⟨fun a b => Int.le_total a.window b.window⟩

instance : IsTrans VariantResult (fun a b => a.window ≤ b.window) :=
  ⟨fun _ _ _ hab hbc => le_trans hab hbc⟩

/-- C9: `compare_variants` returns the verdict "robust" exactly when the CAGR
spread across variants is at most 0.02 and the max-drawdown spread is at most
0.05 (spread `max - min ≤ c` stated equivalently as all pairwise differences
`≤ c`); it appends exactly one reason string per strictly exceeded threshold;
and its result list is sorted by ascending window and is a permutation of
the input records, regardless of the order the windows were given in. -/
theorem compare_variants_spec (variantResults : List VariantResult)
    (out : Comparison)
    (h : compare_variants_core variantResults = Except.ok out) :
    (out.robust = true ↔
      ((∀ a ∈ out.results, ∀ b ∈ out.results, a.cagrValue - b.cagrValue ≤ 1 / 50) ∧
       (∀ a ∈ out.results, ∀ b ∈ out.results,
         a.maxDrawdownValue - b.maxDrawdownValue ≤ 1 / 20))) ∧
    (cagrReason ∈ out.reasons ↔
      ∃ a ∈ out.results, ∃ b ∈ out.results, 1 / 50 < a.cagrValue - b.cagrValue) ∧
    (ddReason ∈ out.reasons ↔
      ∃ a ∈ out.results, ∃ b ∈ out.results,
        1 / 20 < a.maxDrawdownValue - b.maxDrawdownValue) ∧
    out.reasons.Sublist [cagrReason, ddReason] ∧
    List.Sorted (fun a b => a.window ≤ b.window) out.results ∧
    out.results.Perm variantResults := by
  simp only [compare_variants_core] at h
  cases hsort : List.insertionSort (fun a b => a.window ≤ b.window) variantResults with
  | nil => rw [hsort] at h; exact absurd h (by simp)
  | cons r rs =>
    rw [hsort] at h
    simp only [Except.ok.injEq] at h
    subst h
    have hCiff : (1 / 50 <
        |(rs.map (·.cagrValue)).foldl max r.cagrValue -
          (rs.map (·.cagrValue)).foldl min r.cagrValue|) ↔
        ∃ a ∈ r :: rs, ∃ b ∈ r :: rs, 1 / 50 < a.cagrValue - b.cagrValue := by
      rw [lt_fold_range_iff]
      simp [List.mem_map]
    have hDiff : (1 / 20 <
        |(rs.map (·.maxDrawdownValue)).foldl max r.maxDrawdownValue -
          (rs.map (·.maxDrawdownValue)).foldl min r.maxDrawdownValue|) ↔
        ∃ a ∈ r :: rs, ∃ b ∈ r :: rs,
          1 / 20 < a.maxDrawdownValue - b.maxDrawdownValue := by
      rw [lt_fold_range_iff]
      simp [List.mem_map]
    have hne : cagrReason ≠ ddReason := by decide
    by_cases hc : 1 / 50 <
        |(rs.map (·.cagrValue)).foldl max r.cagrValue -
          (rs.map (·.cagrValue)).foldl min r.cagrValue| <;>
      by_cases hd : 1 / 20 <
        |(rs.map (·.maxDrawdownValue)).foldl max r.maxDrawdownValue -
          (rs.map (·.maxDrawdownValue)).foldl min r.maxDrawdownValue|
    · simp only [if_pos hc, if_pos hd]
      refine ⟨iff_of_false (by simp) ?_, iff_of_true (by simp) (hCiff.mp hc),
        iff_of_true (by simp) (hDiff.mp hd), List.Sublist.refl _,
        by rw [← hsort]; exact List.sorted_insertionSort _ _,
        by rw [← hsort]; exact List.perm_insertionSort _ _⟩
      rintro ⟨hA, _⟩
      obtain ⟨a, ha, b, hb, hab⟩ := hCiff.mp hc
      exact absurd (hA a ha b hb) (not_le.mpr hab)
    · have hd' : ∀ a ∈ r :: rs, ∀ b ∈ r :: rs,
          a.maxDrawdownValue - b.maxDrawdownValue ≤ 1 / 20 := by
        intro a ha b hb
        by_contra hgt
        exact hd (hDiff.mpr ⟨a, ha, b, hb, not_le.mp hgt⟩)
      simp only [if_pos hc, if_neg hd]
      refine ⟨iff_of_false (by simp) ?_, iff_of_true (by simp) (hCiff.mp hc),
        iff_of_false (by simp [hne.symm]) ?_,
        List.Sublist.cons₂ cagrReason (by simp),
        by rw [← hsort]; exact List.sorted_insertionSort _ _,
        by rw [← hsort]; exact List.perm_insertionSort _ _⟩
      · rintro ⟨hA, _⟩
        obtain ⟨a, ha, b, hb, hab⟩ := hCiff.mp hc
        exact absurd (hA a ha b hb) (not_le.mpr hab)
      · rintro ⟨a, ha, b, hb, hab⟩
        exact absurd hab (not_lt.mpr (hd' a ha b hb))
    · have hc' : ∀ a ∈ r :: rs, ∀ b ∈ r :: rs,
          a.cagrValue - b.cagrValue ≤ 1 / 50 := by
        intro a ha b hb
        by_contra hgt
        exact hc (hCiff.mpr ⟨a, ha, b, hb, not_le.mp hgt⟩)
      simp only [if_neg hc, if_pos hd, List.nil_append]
      refine ⟨iff_of_false (by simp) ?_, iff_of_false (by simp [hne]) ?_,
        iff_of_true (by simp) (hDiff.mp hd),
        List.Sublist.cons cagrReason (List.Sublist.refl _),
        by rw [← hsort]; exact List.sorted_insertionSort _ _,
        by rw [← hsort]; exact List.perm_insertionSort _ _⟩
      · rintro ⟨_, hB⟩
        obtain ⟨a, ha, b, hb, hab⟩ := hDiff.mp hd
        exact absurd (hB a ha b hb) (not_le.mpr hab)
      · rintro ⟨a, ha, b, hb, hab⟩
        exact absurd hab (not_lt.mpr (hc' a ha b hb))
    · have hc' : ∀ a ∈ r :: rs, ∀ b ∈ r :: rs,
          a.cagrValue - b.cagrValue ≤ 1 / 50 := by
        intro a ha b hb
        by_contra hgt
        exact hc (hCiff.mpr ⟨a, ha, b, hb, not_le.mp hgt⟩)
      have hd' : ∀ a ∈ r :: rs, ∀ b ∈ r :: rs,
          a.maxDrawdownValue - b.maxDrawdownValue ≤ 1 / 20 := by
        intro a ha b hb
        by_contra hgt
        exact hd (hDiff.mpr ⟨a, ha, b, hb, not_le.mp hgt⟩)
      simp only [if_neg hc, if_neg hd, List.nil_append]
      refine ⟨iff_of_true (by simp) ⟨hc', hd'⟩, iff_of_false (by simp) ?_,
        iff_of_false (by simp) ?_, List.nil_sublist _,
        by rw [← hsort]; exact List.sorted_insertionSort _ _,
        by rw [← hsort]; exact List.perm_insertionSort _ _⟩
      · rintro ⟨a, ha, b, hb, hab⟩
        exact absurd hab (not_lt.mpr (hc' a ha b hb))
      · rintro ⟨a, ha, b, hb, hab⟩
        exact absurd hab (not_lt.mpr (hd' a ha b hb))

/-- Two sample variant records, given out of window order. -/
def sampleVariants : List VariantResult :=
  [{ window := 300, cagrValue := 1 / 10, maxDrawdownValue := -(1 / 10) },
   { window := 100, cagrValue := 0, maxDrawdownValue := 0 }]

/-- The comparison `compare_variants_core` produces for `sampleVariants`:
sorted by window, not robust, both thresholds exceeded. -/
def sampleComparison : Comparison :=
  { results := [{ window := 100, cagrValue := 0, maxDrawdownValue := 0 },
                { window := 300, cagrValue := 1 / 10, maxDrawdownValue := -(1 / 10) }],
    robust := false, reasons := [cagrReason, ddReason] }

/-- Witness for `compare_variants_spec`: the hypothesis discharged on
`sampleVariants`. -/
theorem compare_variants_spec_witness :
    compare_variants_core sampleVariants = Except.ok sampleComparison ∧
    ((sampleComparison.robust = true ↔
        ((∀ a ∈ sampleComparison.results, ∀ b ∈ sampleComparison.results,
            a.cagrValue - b.cagrValue ≤ 1 / 50) ∧
         (∀ a ∈ sampleComparison.results, ∀ b ∈ sampleComparison.results,
            a.maxDrawdownValue - b.maxDrawdownValue ≤ 1 / 20))) ∧
      (cagrReason ∈ sampleComparison.reasons ↔
        ∃ a ∈ sampleComparison.results, ∃ b ∈ sampleComparison.results,
          1 / 50 < a.cagrValue - b.cagrValue) ∧
      (ddReason ∈ sampleComparison.reasons ↔
        ∃ a ∈ sampleComparison.results, ∃ b ∈ sampleComparison.results,
          1 / 20 < a.maxDrawdownValue - b.maxDrawdownValue) ∧
      sampleComparison.reasons.Sublist [cagrReason, ddReason] ∧
      List.Sorted (fun a b => a.window ≤ b.window) sampleComparison.results ∧
      sampleComparison.results.Perm sampleVariants) := by
  have hok : compare_variants_core sampleVariants = Except.ok sampleComparison := by
    norm_num [compare_variants_core, sampleVariants, sampleComparison,
      List.insertionSort, List.orderedInsert, max_def, min_def, abs, cagrReason,
      ddReason]
  exact ⟨hok, compare_variants_spec sampleVariants sampleComparison hok⟩

/-- The three `InvalidInput` failures of `run_backtest`: empty decisions,
missing asset series, start date not in the calendar. -/
def isInvalidInput (r : Except String BacktestResult) : Prop :=
  r = Except.error "decisions must not be empty" ∨
    r = Except.error "prices_by_asset must contain SPY and BIL" ∨
    r = Except.error "start_date not in trading_days"

theorem btStep_error {pricesSpy pricesBil : List (Dat × ℚ)}
    {decisions : List TrendDecision} {tradeDates : List Dat} {cost_bps : ℚ}
    {start_date : Dat} {s : BtState} {day : Dat} {m : String}
    (h : btStep pricesSpy pricesBil decisions tradeDates cost_bps start_date s day =
      Except.error m) : m = "missing price for held asset" := by
  unfold btStep at h
  split at h
  · cases h
  · split at h
    · rename_i e heq
      cases h
      unfold compoundDaily at heq
      split at heq
      · cases heq
      · split at heq
        · cases heq
        · exact (Except.error.inj heq).symm
    · cases h

theorem btLoop_error {pricesSpy pricesBil : List (Dat × ℚ)}
    {decisions : List TrendDecision} {tradeDates : List Dat} {cost_bps : ℚ}
    {start_date : Dat} :
    ∀ {days : List Dat} {s : BtState} {m : String},
      btLoop pricesSpy pricesBil decisions tradeDates cost_bps start_date days s =
        Except.error m → m = "missing price for held asset" := by
  intro days
  induction days with
  | nil => intro s m h; cases h
  | cons day rest ih =>
    intro s m h
    unfold btLoop at h
    split at h
    · rename_i e heq
      cases h
      exact btStep_error heq
    · exact ih h

/-- C6 (amended): `run_backtest` fails with one of the three `InvalidInput`
errors exactly when the decision sequence is empty, the price mapping lacks a
SPY or BIL series, or the trading-day sequence is non-empty and the earliest
decision's trade date is not a member of it.  When the trading-day sequence
is empty (and the other preconditions hold) the code indexes
`trading_days[-1]` before the membership check and fails with an IndexError
instead, which is the one departure from the claim. -/
theorem run_backtest_invalid_input (trading_days : List Dat)
    (prices_by_asset : List (String × List (Dat × ℚ)))
    (decisions : List TrendDecision) (initial_value cost_bps : ℚ) :
    isInvalidInput
        (run_backtest trading_days prices_by_asset decisions initial_value cost_bps) ↔
      (decisions = [] ∨ (prices_by_asset.lookup "SPY").isNone ∨
        (prices_by_asset.lookup "BIL").isNone ∨
        (trading_days ≠ [] ∧ startDateOf decisions ∉ trading_days)) := by
  unfold run_backtest
  cases decisions with
  | nil => simp [isInvalidInput]
  | cons d0 drest =>
    cases hS : prices_by_asset.lookup "SPY" with
    | none => simp [isInvalidInput, hS]
    | some pricesSpy =>
      cases hB : prices_by_asset.lookup "BIL" with
      | none => simp [isInvalidInput, hS, hB]
      | some pricesBil =>
        cases hL : trading_days.getLast? with
        | none =>
          have htd : trading_days = [] := List.getLast?_eq_none_iff.mp hL
          simp [isInvalidInput, htd]
        | some lastDay =>
          have htd : trading_days ≠ [] := by
            intro hnil
            rw [hnil] at hL
            cases hL
          dsimp only
          by_cases hmem : startDateOf (d0 :: drest) ∈ trading_days
          · rw [if_pos hmem]
            cases hLoop : btLoop pricesSpy pricesBil (d0 :: drest)
                ((d0 :: drest).map (·.trade_date)) cost_bps
                (startDateOf (d0 :: drest)) trading_days
                { value := initial_value,
                  currentAsset := (firstDecisionOf (d0 :: drest)).target_asset,
                  prevDay := none, trades := [], equityCurve := [],
                  holdings := [] } with
            | error e =>
              have he := btLoop_error hLoop
              subst he
              simp [isInvalidInput, hmem, htd]
            | ok sFinal =>
              cases hCurve : sFinal.equityCurve with
              | nil => simp [isInvalidInput, hCurve, hmem, htd]
              | cons c0 crest => simp [isInvalidInput, hCurve, hmem, htd]
          · rw [if_neg hmem]
            simp [isInvalidInput, hmem, htd]

/-- C6 counterexample: with an empty trading-day calendar, a non-empty
decision list and both price series present, the membership precondition is
violated (the trade date is not in the empty calendar), yet `run_backtest`
fails with the IndexError from `trading_days[-1]`, not with an
`InvalidInput` error — refuting "fails with InvalidInput exactly when a
precondition is violated". -/
theorem run_backtest_invalid_input_counterexample :
    startDateOf [switchDecision] ∉ ([] : List Dat) ∧
    run_backtest [] [("SPY", []), ("BIL", [])] [switchDecision] 100 5 =
      Except.error "list index out of range" ∧
    ¬isInvalidInput
      (run_backtest [] [("SPY", []), ("BIL", [])] [switchDecision] 100 5) := by
  refine ⟨by simp, rfl, ?_⟩
  intro h
  rcases h with h | h | h <;> exact absurd (Except.error.inj h) (by decide)

theorem tradeStep_trades (decisions : List TrendDecision)
    (tradeDates : List Dat) (cost_bps : ℚ) (day : Dat) (currentAsset : Asset)
    (trades : List Trade) (v : ℚ) :
    ∃ tr, (tradeStep decisions tradeDates cost_bps day currentAsset trades v).2.2 =
        trades ++ tr ∧ ∀ t ∈ tr, t.date = day := by
  unfold tradeStep
  split
  · split
    · split
      · exact ⟨[(executeSwitch day currentAsset _ v cost_bps).2], rfl, by
          intro t ht
          rw [List.mem_singleton] at ht
          subst ht
          rfl⟩
      · exact ⟨[], by simp, by simp⟩
    · exact ⟨[], by simp, by simp⟩
  · exact ⟨[], by simp, by simp⟩

theorem btStep_ok_shape {pricesSpy pricesBil : List (Dat × ℚ)}
    {decisions : List TrendDecision} {tradeDates : List Dat} {cost_bps : ℚ}
    {start_date : Dat} {s s1 : BtState} {day : Dat}
    (h : btStep pricesSpy pricesBil decisions tradeDates cost_bps start_date s day =
      Except.ok s1) :
    (day < start_date ∧ s1 = s) ∨
      (¬day < start_date ∧ ∃ (p : Dat × ℚ) (q : Dat × Asset) (tr : List Trade),
        p.1 = day ∧ q.1 = day ∧
        s1.equityCurve = s.equityCurve ++ [p] ∧
        s1.holdings = s.holdings ++ [q] ∧
        s1.trades = s.trades ++ tr ∧ (∀ t ∈ tr, t.date = day)) := by
  unfold btStep at h
  split at h
  · exact Or.inl ⟨by assumption, (Except.ok.inj h).symm⟩
  · rename_i hlt
    split at h
    · cases h
    · rename_i v heq
      obtain ⟨tr, htr, htrdate⟩ :=
        tradeStep_trades decisions tradeDates cost_bps day s.currentAsset s.trades v
      refine Or.inr ⟨hlt, ⟨(day,
        (tradeStep decisions tradeDates cost_bps day s.currentAsset s.trades v).1),
        (day,
        (tradeStep decisions tradeDates cost_bps day s.currentAsset s.trades v).2.1),
        tr, rfl, rfl, ?_, ?_, ?_, htrdate⟩⟩
      · rw [← Except.ok.inj h]
      · rw [← Except.ok.inj h]
      · rw [← Except.ok.inj h]
        exact htr

theorem btLoop_cons (pricesSpy pricesBil : List (Dat × ℚ))
    (decisions : List TrendDecision) (tradeDates : List Dat) (cost_bps : ℚ)
    (start_date day : Dat) (rest : List Dat) (s : BtState) :
    btLoop pricesSpy pricesBil decisions tradeDates cost_bps start_date
        (day :: rest) s =
      match btStep pricesSpy pricesBil decisions tradeDates cost_bps start_date
          s day with
      | Except.error e => Except.error e
      | Except.ok s1 =>
        btLoop pricesSpy pricesBil decisions tradeDates cost_bps start_date rest s1 :=
  rfl

theorem btLoop_append (pricesSpy pricesBil : List (Dat × ℚ))
    (decisions : List TrendDecision) (tradeDates : List Dat) (cost_bps : ℚ)
    (start_date : Dat) :
    ∀ (l1 l2 : List Dat) (s : BtState),
      btLoop pricesSpy pricesBil decisions tradeDates cost_bps start_date
          (l1 ++ l2) s =
        match btLoop pricesSpy pricesBil decisions tradeDates cost_bps start_date
            l1 s with
        | Except.error e => Except.error e
        | Except.ok s1 =>
          btLoop pricesSpy pricesBil decisions tradeDates cost_bps start_date l2 s1 := by
  intro l1
  induction l1 with
  | nil => intro l2 s; rfl
  | cons day rest ih =>
    intro l2 s
    rw [List.cons_append, btLoop_cons, btLoop_cons]
    cases btStep pricesSpy pricesBil decisions tradeDates cost_bps start_date s day with
    | error e => rfl
    | ok s1 => exact ih l2 s1

theorem btLoop_skip (pricesSpy pricesBil : List (Dat × ℚ))
    (decisions : List TrendDecision) (tradeDates : List Dat) (cost_bps : ℚ)
    (start_date : Dat) :
    ∀ (days : List Dat) (s : BtState), (∀ d ∈ days, d < start_date) →
      btLoop pricesSpy pricesBil decisions tradeDates cost_bps start_date days s =
        Except.ok s := by
  intro days
  induction days with
  | nil => intro s _; rfl
  | cons day rest ih =>
    intro s hall
    rw [btLoop_cons]
    have hstep : btStep pricesSpy pricesBil decisions tradeDates cost_bps
        start_date s day = Except.ok s := by
      unfold btStep
      rw [if_pos (hall day (List.mem_cons_self day rest))]
    rw [hstep]
    exact ih s fun d hd => hall d (List.mem_cons_of_mem day hd)

theorem btLoop_extend {pricesSpy pricesBil : List (Dat × ℚ)}
    {decisions : List TrendDecision} {tradeDates : List Dat} {cost_bps : ℚ}
    {start_date : Dat} :
    ∀ {days : List Dat} {s s1 : BtState},
      btLoop pricesSpy pricesBil decisions tradeDates cost_bps start_date days s =
        Except.ok s1 →
      ∃ cs hs tr, s1.equityCurve = s.equityCurve ++ cs ∧
        s1.holdings = s.holdings ++ hs ∧ s1.trades = s.trades ++ tr ∧
        cs.map Prod.fst = days.filter (fun d => !decide (d < start_date)) ∧
        hs.map Prod.fst = days.filter (fun d => !decide (d < start_date)) ∧
        (∀ t ∈ tr, t.date ∈ days ∧ ¬t.date < start_date) := by
  intro days
  induction days with
  | nil =>
    intro s s1 h
    cases h
    exact ⟨[], [], [], by simp, by simp, by simp, by simp, by simp, by simp⟩
  | cons day rest ih =>
    intro s s1 h
    rw [btLoop_cons] at h
    split at h
    · cases h
    · rename_i smid hstep
      obtain ⟨cs, hs, tr, hcurve, hhold, htrades, hcsmap, hhsmap, htr⟩ := ih h
      rcases btStep_ok_shape hstep with ⟨hlt, rfl⟩ |herr
      · refine ⟨cs, hs, tr, hcurve, hhold, htrades, ?_, ?_, ?_⟩
        · rw [List.filter_cons, if_neg (by simp [hlt])]
          exact hcsmap
        · rw [List.filter_cons, if_neg (by simp [hlt])]
          exact hhsmap
        · exact fun t ht => ⟨List.mem_cons_of_mem day (htr t ht).1, (htr t ht).2⟩
      · obtain ⟨hlt, p, q, tr0, hp, hq, hc, hh, ht, htd⟩ := herr
        refine ⟨p :: cs, q :: hs, tr0 ++ tr, ?_, ?_, ?_, ?_, ?_, ?_⟩
        · rw [hcurve, hc, List.append_assoc, List.singleton_append]
        · rw [hhold, hh, List.append_assoc, List.singleton_append]
        · rw [htrades, ht, List.append_assoc]
        · rw [List.filter_cons, if_pos (by simp [hlt]), List.map_cons, hp, hcsmap]
        · rw [List.filter_cons, if_pos (by simp [hlt]), List.map_cons, hq, hhsmap]
        · intro t htmem
          rcases List.mem_append.mp htmem with h0 | h1
          · rw [htd t h0]
            exact ⟨List.mem_cons_self day rest, hlt⟩
          · exact ⟨List.mem_cons_of_mem day (htr t h1).1, (htr t h1).2⟩

theorem run_backtest_ok_inversion {trading_days : List Dat}
    {prices_by_asset : List (String × List (Dat × ℚ))}
    {decisions : List TrendDecision} {initial_value cost_bps : ℚ}
    {res : BacktestResult}
    (h : run_backtest trading_days prices_by_asset decisions initial_value cost_bps =
      Except.ok res) :
    ∃ pricesSpy pricesBil sFinal c0 crest,
      decisions ≠ [] ∧
      prices_by_asset.lookup "SPY" = some pricesSpy ∧
      prices_by_asset.lookup "BIL" = some pricesBil ∧
      startDateOf decisions ∈ trading_days ∧
      btLoop pricesSpy pricesBil decisions (decisions.map (·.trade_date)) cost_bps
        (startDateOf decisions) trading_days
        { value := initial_value,
          currentAsset := (firstDecisionOf decisions).target_asset,
          prevDay := none, trades := [], equityCurve := [], holdings := [] } =
        Except.ok sFinal ∧
      sFinal.equityCurve = c0 :: crest ∧
      res = { start_date := c0.1,
              end_date := ((c0 :: crest).getLast (List.cons_ne_nil c0 crest)).1,
              initial_value := initial_value,
              final_value := ((c0 :: crest).getLast (List.cons_ne_nil c0 crest)).2,
              equity_curve := c0 :: crest,
              holdings := sFinal.holdings, trades := sFinal.trades } := by
  simp only [run_backtest] at h
  split at h
  · cases h
  · rename_i d0 drest
    split at h
    · rename_i pricesSpy pricesBil hS hB
      split at h
      · cases h
      · rename_i lastDay hL
        split at h
        · rename_i hmem
          split at h
          · cases h
          · rename_i sFinal hLoop
            split at h
            · cases h
            · rename_i c0 crest hCurve
              exact ⟨pricesSpy, pricesBil, sFinal, c0, crest, List.cons_ne_nil d0 drest,
                hS, hB, hmem, hLoop, hCurve, (Except.ok.inj h).symm⟩
        · cases h
    · cases h

/-- C7: for a strictly increasing trading-day sequence, any `BacktestResult`
returned by `run_backtest` has a non-empty equity curve whose dates are
strictly increasing with exactly one entry per trading day from the earliest
decision's trade date onward, `final_value` equal to the last curve value,
`start_date`/`end_date` equal to the first/last curve dates, and a holdings
sequence parallel over the same dates. -/
theorem run_backtest_result_invariants (trading_days : List Dat)
    (prices_by_asset : List (String × List (Dat × ℚ)))
    (decisions : List TrendDecision) (initial_value cost_bps : ℚ)
    (res : BacktestResult)
    (hsorted : List.Sorted (· < ·) trading_days)
    (hok : run_backtest trading_days prices_by_asset decisions initial_value cost_bps =
      Except.ok res) :
    res.equity_curve ≠ [] ∧
    List.Sorted (· < ·) (res.equity_curve.map Prod.fst) ∧
    res.equity_curve.map Prod.fst =
      trading_days.filter (fun day => decide (startDateOf decisions ≤ day)) ∧
    res.holdings.map Prod.fst = res.equity_curve.map Prod.fst ∧
    (res.equity_curve.head?).map Prod.fst = some res.start_date ∧
    (res.equity_curve.getLast?).map Prod.fst = some res.end_date ∧
    (res.equity_curve.getLast?).map Prod.snd = some res.final_value := by
  obtain ⟨pricesSpy, pricesBil, sFinal, c0, crest, -, -, -, -, hLoop, hCurve, hres⟩ :=
    run_backtest_ok_inversion hok
  obtain ⟨cs, hs, tr, hcurve, hhold, -, hcsmap, hhsmap, -⟩ := btLoop_extend hLoop
  rw [List.nil_append] at hcurve hhold
  have hfilter : trading_days.filter (fun d => !decide (d < startDateOf decisions)) =
      trading_days.filter (fun day => decide (startDateOf decisions ≤ day)) := by
    refine List.filter_congr fun x _ => ?_
    rw [← decide_not, decide_eq_decide]
    exact not_lt
  have hcurvemap : res.equity_curve.map Prod.fst =
      trading_days.filter (fun day => decide (startDateOf decisions ≤ day)) := by
    rw [hres]
    dsimp only
    rw [← hCurve, hcurve, hcsmap, hfilter]
  have hholdmap : res.holdings.map Prod.fst = res.equity_curve.map Prod.fst := by
    rw [hres]
    dsimp only
    rw [← hCurve, hcurve, hhold, hcsmap, hhsmap]
  refine ⟨by rw [hres]; simp, ?_, hcurvemap, hholdmap, ?_, ?_, ?_⟩
  · rw [hcurvemap]
    exact List.Pairwise.sublist (List.filter_sublist trading_days) hsorted
  · rw [hres]
    simp
  · rw [hres]
    dsimp only
    rw [List.getLast?_eq_getLast (c0 :: crest) (List.cons_ne_nil c0 crest)]
    rfl
  · rw [hres]
    dsimp only
    rw [List.getLast?_eq_getLast (c0 :: crest) (List.cons_ne_nil c0 crest)]
    rfl

/-- A one-day calendar date for concrete backtest runs. -/
def wd : Dat := ⟨2024, 1, 2⟩

/-- A decision trading into SPY on the one-day calendar. -/
def wdec : TrendDecision :=
  { signal_date := ⟨2024, 1, 1⟩, trade_date := wd, spy_close := 10, sma_200 := 9,
    target_asset := Asset.SPY }

/-- One-day price series for both assets. -/
def wprices : List (String × List (Dat × ℚ)) :=
  [("SPY", [(wd, 10)]), ("BIL", [(wd, 1)])]

/-- The result of the one-day backtest run. -/
def wres : BacktestResult :=
  { start_date := wd, end_date := wd, initial_value := 100, final_value := 100,
    equity_curve := [(wd, 100)], holdings := [(wd, Asset.SPY)], trades := [] }

/-- Witness for `run_backtest_result_invariants`: both hypotheses discharged
on the concrete one-day run. -/
theorem run_backtest_result_invariants_witness :
    List.Sorted (· < ·) [wd] ∧
    run_backtest [wd] wprices [wdec] 100 5 = Except.ok wres ∧
    (wres.equity_curve ≠ [] ∧
      List.Sorted (· < ·) (wres.equity_curve.map Prod.fst) ∧
      wres.equity_curve.map Prod.fst =
        [wd].filter (fun day => decide (startDateOf [wdec] ≤ day)) ∧
      wres.holdings.map Prod.fst = wres.equity_curve.map Prod.fst ∧
      (wres.equity_curve.head?).map Prod.fst = some wres.start_date ∧
      (wres.equity_curve.getLast?).map Prod.fst = some wres.end_date ∧
      (wres.equity_curve.getLast?).map Prod.snd = some wres.final_value) :=
  ⟨by decide, by decide,
    run_backtest_result_invariants [wd] wprices [wdec] 100 5 wres (by decide)
      (by decide)⟩

theorem pyfold_trade_date (l : List TrendDecision) :
    ∀ b, (l.foldl (fun best dd =>
        if dd.trade_date < best.trade_date then dd else best) b).trade_date =
      (l.map (·.trade_date)).foldl min b.trade_date := by
  induction l with
  | nil => intro b; rfl
  | cons x xs ih =>
    intro b
    rw [List.foldl_cons, List.map_cons, List.foldl_cons, ih]
    congr 1
    rcases lt_or_ge x.trade_date b.trade_date with h | h
    · rw [if_pos h, min_eq_right h.le]
    · rw [if_neg (not_lt.mpr h), min_eq_left h]

theorem find_first_min_decision (l : List TrendDecision) :
    ∀ b, (b :: l).find? (fun dd =>
        decide (dd.trade_date = (l.map (·.trade_date)).foldl min b.trade_date)) =
      some (l.foldl (fun best dd =>
        if dd.trade_date < best.trade_date then dd else best) b) := by
  induction l with
  | nil =>
    intro b
    exact List.find?_cons_of_pos _ (by simp)
  | cons x xs ih =>
    intro b
    rw [List.map_cons, List.foldl_cons, List.foldl_cons]
    by_cases hx : x.trade_date < b.trade_date
    · have hb' : (if x.trade_date < b.trade_date then x else b) = x := if_pos hx
      rw [hb']
      have hminb : min b.trade_date x.trade_date = x.trade_date :=
        min_eq_right hx.le
      rw [hminb]
      have hm_le : (xs.map (·.trade_date)).foldl min x.trade_date ≤ x.trade_date :=
        le_foldl_min_init _ _
      rw [List.find?_cons_of_neg _ (by
        simp only [decide_eq_true_eq]
        intro heq
        rw [heq] at hx
        exact absurd (lt_of_le_of_lt hm_le hx) (lt_irrefl _))]
      exact ih x
    · have hb' : (if x.trade_date < b.trade_date then x else b) = b := if_neg hx
      rw [hb']
      have hminb : min b.trade_date x.trade_date = b.trade_date :=
        min_eq_left (not_lt.mp hx)
      rw [hminb]
      have hm_le : (xs.map (·.trade_date)).foldl min b.trade_date ≤ b.trade_date :=
        le_foldl_min_init _ _
      by_cases hped : b.trade_date = (xs.map (·.trade_date)).foldl min b.trade_date
      · rw [List.find?_cons_of_pos _ (by simp only [decide_eq_true_eq]; exact hped)]
        have hIH := ih b
        rw [List.find?_cons_of_pos _ (by simp only [decide_eq_true_eq]; exact hped)] at hIH
        rw [← Option.some.inj hIH]
      · rw [List.find?_cons_of_neg _ (by simp only [decide_eq_true_eq]; exact hped)]
        rw [List.find?_cons_of_neg _ (by
          simp only [decide_eq_true_eq]
          intro heq
          apply hped
          have h2 : x.trade_date ≤ b.trade_date := by rw [heq]; exact hm_le
          have hbe : b.trade_date = x.trade_date := le_antisymm (not_lt.mp hx) h2
          exact hbe.trans heq)]
        have hIH := ih b
        rw [List.find?_cons_of_neg _ (by simp only [decide_eq_true_eq]; exact hped)] at hIH
        exact hIH

theorem startDateOf_mem_trade_dates (d0 : TrendDecision)
    (drest : List TrendDecision) :
    startDateOf (d0 :: drest) ∈ (d0 :: drest).map (·.trade_date) := by
  unfold startDateOf
  rw [List.map_cons]
  exact foldl_min_mem (drest.map (·.trade_date)) d0.trade_date

/-- C10: under `run_backtest`'s preconditions (a returned result) on a
strictly increasing calendar, the first equity-curve entry is exactly
(startDate, initialValue) — no daily return is compounded on the first
simulated day; the asset held at the start date is the earliest decision's
target, so that decision triggers no switch and no transaction cost (no trade
is dated at the start date); and the first holdings entry is that target. -/
theorem run_backtest_first_day (trading_days : List Dat)
    (prices_by_asset : List (String × List (Dat × ℚ)))
    (decisions : List TrendDecision) (initial_value cost_bps : ℚ)
    (res : BacktestResult)
    (hsorted : List.Sorted (· < ·) trading_days)
    (hok : run_backtest trading_days prices_by_asset decisions initial_value cost_bps =
      Except.ok res) :
    res.equity_curve.head? = some (startDateOf decisions, initial_value) ∧
    res.holdings.head? =
      some (startDateOf decisions, (firstDecisionOf decisions).target_asset) ∧
    ∀ t ∈ res.trades, t.date ≠ startDateOf decisions := by
  obtain ⟨pricesSpy, pricesBil, sFinal, c0, crest, hne, hS, hB, hmem, hLoop, hCurve,
    hres⟩ := run_backtest_ok_inversion hok
  obtain ⟨d0, drest, rfl⟩ := List.exists_cons_of_ne_nil hne
  obtain ⟨before, after, htd⟩ := List.append_of_mem hmem
  subst htd
  have hpw : List.Pairwise (· < ·)
      (before ++ startDateOf (d0 :: drest) :: after) := hsorted
  rw [List.pairwise_append] at hpw
  obtain ⟨hsortb, hsortrest, hcross⟩ := hpw
  have hbefore : ∀ d ∈ before, d < startDateOf (d0 :: drest) :=
    fun d hd => hcross d hd _ (List.mem_cons_self _ _)
  have hafter : ∀ d ∈ after, startDateOf (d0 :: drest) < d :=
    (List.sorted_cons.mp hsortrest).1
  have hfind : (d0 :: drest).find?
      (fun dd => decide (dd.trade_date = startDateOf (d0 :: drest))) =
      some (firstDecisionOf (d0 :: drest)) := by
    unfold startDateOf firstDecisionOf
    exact find_first_min_decision drest d0
  have hstep : btStep pricesSpy pricesBil (d0 :: drest)
      ((d0 :: drest).map (·.trade_date)) cost_bps (startDateOf (d0 :: drest))
      { value := initial_value,
        currentAsset := (firstDecisionOf (d0 :: drest)).target_asset,
        prevDay := none, trades := [], equityCurve := [], holdings := [] }
      (startDateOf (d0 :: drest)) =
      Except.ok
        { value := initial_value,
          currentAsset := (firstDecisionOf (d0 :: drest)).target_asset,
          prevDay := some (startDateOf (d0 :: drest)), trades := [],
          equityCurve := [(startDateOf (d0 :: drest), initial_value)],
          holdings := [(startDateOf (d0 :: drest),
            (firstDecisionOf (d0 :: drest)).target_asset)] } := by
    unfold btStep
    rw [if_neg (lt_irrefl _)]
    simp only [compoundDaily]
    unfold tradeStep
    rw [if_pos (startDateOf_mem_trade_dates d0 drest), hfind]
    simp
  rw [btLoop_append] at hLoop
  rw [btLoop_skip pricesSpy pricesBil (d0 :: drest)
    ((d0 :: drest).map (·.trade_date)) cost_bps (startDateOf (d0 :: drest))
    before _ hbefore] at hLoop
  dsimp only at hLoop
  rw [btLoop_cons, hstep] at hLoop
  dsimp only at hLoop
  obtain ⟨cs, hs, tr, hcurve, hhold, htrades, -, -, htr⟩ := btLoop_extend hLoop
  refine ⟨?_, ?_, ?_⟩
  · rw [hres]
    dsimp only
    rw [← hCurve, hcurve]
    rfl
  · rw [hres]
    dsimp only
    rw [hhold]
    rfl
  · intro t ht
    rw [hres] at ht
    dsimp only at ht
    rw [htrades] at ht
    rw [List.nil_append] at ht
    exact (hafter t.date (htr t ht).1).ne'

/-- Witness for `run_backtest_first_day`: both hypotheses discharged on the
concrete one-day run. -/
theorem run_backtest_first_day_witness :
    List.Sorted (· < ·) [wd] ∧
    run_backtest [wd] wprices [wdec] 100 5 = Except.ok wres ∧
    (wres.equity_curve.head? = some (startDateOf [wdec], 100) ∧
      wres.holdings.head? =
        some (startDateOf [wdec], (firstDecisionOf [wdec]).target_asset) ∧
      ∀ t ∈ wres.trades, t.date ≠ startDateOf [wdec]) :=
  ⟨by decide, by decide,
    run_backtest_first_day [wd] wprices [wdec] 100 5 wres (by decide) (by decide)⟩

/-- The 0-based calendar index of a date: position of its (first, and under a
strictly sorted calendar unique) occurrence in the trading-day list. -/
def calIdx (s : Dat) : List Dat → Option Nat
  | [] => none
  | d :: rest => if d = s then some 0 else (calIdx s rest).map (· + 1)

/-- What `make_trend_decisions` emits for one month-end signal date,
following the specification: with `i` the 0-based calendar index of the
signal date, skip unless `i + 1 ≥ window` and `i` is not the last index;
otherwise emit the decision whose SMA is the arithmetic mean of the prices
on the `window` trading days ending at and including the signal date, whose
observed close is the price at the signal date, and whose trade date is the
next trading day after the signal date. -/
def decisionAt (trading_days : List Dat) (price : Dat → ℚ) (window : Int)
    (s : Dat) : Option TrendDecision :=
  (calIdx s trading_days).bind fun i =>
    (next_trading_day trading_days s).bind fun t =>
      if window ≤ (i : Int) + 1 ∧ i + 1 < trading_days.length then
        some { signal_date := s, trade_date := t, spy_close := price s,
               sma_200 := (((trading_days.take (i + 1)).drop
                   (i + 1 - window.toNat)).map price).sum / (window : ℚ),
               target_asset := decide_target (price s)
                 ((((trading_days.take (i + 1)).drop
                     (i + 1 - window.toNat)).map price).sum / (window : ℚ)) }
      else none

theorem calIdx_isSome {s : Dat} : ∀ {td : List Dat}, s ∈ td →
    ∃ i, calIdx s td = some i := by
  intro td
  induction td with
  | nil => intro h; cases h
  | cons d rest ih =>
    intro h
    by_cases hd : d = s
    · exact ⟨0, by simp [calIdx, hd]⟩
    · rcases List.mem_cons.mp h with rfl | h'
      · exact absurd rfl hd
      · obtain ⟨j, hj⟩ := ih h'
        exact ⟨j + 1, by simp [calIdx, hd, hj]⟩

theorem calIdx_get {s : Dat} : ∀ {td : List Dat} {i : Nat},
    calIdx s td = some i → td.get? i = some s := by
  intro td
  induction td with
  | nil => intro i h; cases h
  | cons d rest ih =>
    intro i h
    unfold calIdx at h
    split at h
    · rename_i hd
      rw [← Option.some.inj h, hd]
      rfl
    · rcases hrec : calIdx s rest with _ | j
      · rw [hrec] at h
        cases h
      · rw [hrec] at h
        simp only [Option.map_some'] at h
        rw [← Option.some.inj h]
        exact ih hrec

theorem indexByDateFrom_none {s : Dat} : ∀ {td : List Dat}, s ∉ td →
    ∀ i0, indexByDateFrom s i0 td = none := by
  intro td
  induction td with
  | nil => intro _ i0; rfl
  | cons d rest ih =>
    intro h i0
    unfold indexByDateFrom
    rw [ih (fun hmem => h (List.mem_cons_of_mem d hmem)) (i0 + 1)]
    rw [if_neg fun hd => h (by rw [← hd]; exact List.mem_cons_self d rest)]

theorem indexByDateFrom_eq_calIdx {s : Dat} : ∀ {td : List Dat}, td.Nodup →
    ∀ i0, indexByDateFrom s i0 td = (calIdx s td).map (· + i0) := by
  intro td
  induction td with
  | nil => intro _ i0; rfl
  | cons d rest ih =>
    intro hnodup i0
    rw [List.nodup_cons] at hnodup
    unfold indexByDateFrom calIdx
    by_cases hd : d = s
    · have hnot : s ∉ rest := hd ▸ hnodup.1
      rw [indexByDateFrom_none hnot (i0 + 1), if_pos hd, if_pos hd]
      simp
    · rw [ih hnodup.2 (i0 + 1), if_neg hd, if_neg hd]
      rcases calIdx s rest with _ | j
      · simp
      · simp only [Option.map_some']
        congr 1
        omega

theorem indexByDate_eq_calIdx {s : Dat} {td : List Dat} (hnodup : td.Nodup) :
    indexByDate td s = calIdx s td := by
  unfold indexByDate
  rw [indexByDateFrom_eq_calIdx hnodup 0]
  rcases calIdx s td with _ | j <;> simp

theorem monthEndsGo_sublist : ∀ (l : List Dat) (a : Dat),
    (monthEndsGo a l).Sublist (a :: l) := by
  intro l
  induction l with
  | nil => intro a; simp [monthEndsGo]
  | cons b l' ih =>
    intro a
    unfold monthEndsGo
    split
    · exact List.Sublist.cons₂ a (ih b)
    · exact List.Sublist.cons a (ih b)

theorem month_end_signal_dates_sublist (td : List Dat) :
    (month_end_signal_dates td).Sublist td := by
  cases td with
  | nil => simp [month_end_signal_dates]
  | cons a l => exact monthEndsGo_sublist l a

theorem next_trading_day_exists {td : List Dat}
    (hsorted : List.Sorted (· < ·) td) {s : Dat} {i : Nat}
    (hidx : calIdx s td = some i) (hlast : i + 1 < td.length) :
    ∃ t, next_trading_day td s = some t := by
  have hget := calIdx_get hidx
  rw [List.get?_eq_some] at hget
  obtain ⟨hi, hgs⟩ := hget
  have hlt : s < td.get ⟨i + 1, hlast⟩ := by
    rw [← hgs]
    exact List.pairwise_iff_get.mp hsorted ⟨i, hi⟩ ⟨i + 1, hlast⟩ (by simp)
  have hiss : (td.find? (fun d => decide (s < d))).isSome = true :=
    List.find?_isSome.mpr ⟨td.get ⟨i + 1, hlast⟩, List.get_mem td _ _, by
      simpa using hlt⟩
  exact Option.isSome_iff_exists.mp hiss

theorem decisionAt_signal {td : List Dat} {price : Dat → ℚ} {w : Int} {s : Dat}
    {d : TrendDecision} (h : decisionAt td price w s = some d) :
    d.signal_date = s := by
  unfold decisionAt at h
  rcases hci : calIdx s td with _ | i
  · rw [hci, Option.none_bind] at h
    cases h
  · rw [hci, Option.some_bind] at h
    rcases hnt : next_trading_day td s with _ | t
    · rw [hnt, Option.none_bind] at h
      cases h
    · rw [hnt, Option.some_bind] at h
      split at h
      · rw [← Option.some.inj h]
      · cases h

theorem filterMap_signal_sublist {g : Dat → Option TrendDecision}
    (hg : ∀ s d, g s = some d → d.signal_date = s) :
    ∀ l : List Dat, ((l.filterMap g).map (·.signal_date)).Sublist l := by
  intro l
  induction l with
  | nil => simp
  | cons s rest ih =>
    rcases hgs : g s with _ | d
    · rw [List.filterMap_cons_none hgs]
      exact List.Sublist.cons s ih
    · rw [List.filterMap_cons_some hgs, List.map_cons, hg s d hgs]
      exact List.Sublist.cons₂ s ih

theorem decisionAt_none_of_skip {td : List Dat} {price : Dat → ℚ} {w : Int}
    {s : Dat} {i : Nat} (hidx : calIdx s td = some i)
    (hskip : ¬(w ≤ (i : Int) + 1 ∧ i + 1 < td.length)) :
    decisionAt td price w s = none := by
  unfold decisionAt
  rw [hidx, Option.some_bind]
  rcases hnt : next_trading_day td s with _ | t
  · rw [Option.none_bind]
  · rw [Option.some_bind, if_neg hskip]

theorem mtdGo_eq_filterMap {td : List Dat} {price : Dat → ℚ} {w : Int}
    (hw : 0 < w) (hsorted : List.Sorted (· < ·) td) :
    ∀ L : List Dat, (∀ s ∈ L, s ∈ td) →
      mtdGo td price w L = Except.ok (L.filterMap (decisionAt td price w)) := by
  intro L
  induction L with
  | nil => intro _; rfl
  | cons s rest ih =>
    intro hmem
    have hrest := fun x hx => hmem x (List.mem_cons_of_mem s hx)
    have hs : s ∈ td := hmem s (List.mem_cons_self s rest)
    obtain ⟨i, hidx⟩ := calIdx_isSome hs
    have hIBD : indexByDate td s = some i := by
      rw [indexByDate_eq_calIdx hsorted.nodup, hidx]
    have hilen : i < td.length := by
      have hg := calIdx_get hidx
      rw [List.get?_eq_some] at hg
      exact hg.1
    simp only [mtdGo, hIBD]
    by_cases hg1 : (i : Int) + 1 < w
    · rw [if_pos hg1, ih hrest]
      congr 1
      rw [List.filterMap_cons_none (decisionAt_none_of_skip hidx (by omega))]
    · by_cases hg2 : (td.length : Int) - 1 ≤ (i : Int)
      · rw [if_neg hg1, if_pos hg2, ih hrest]
        congr 1
        rw [List.filterMap_cons_none (decisionAt_none_of_skip hidx (by omega))]
      · rw [if_neg hg1, if_neg hg2]
        have hwle : w.toNat ≤ i + 1 := by omega
        have hlast : i + 1 < td.length := by omega
        have hvals : (((td.take (i + 1)).drop (i + 1 - w.toNat)).map price).length =
            w.toNat := by
          rw [List.length_map, List.length_drop, List.length_take]
          omega
        have hsma : compute_sma
            (((td.take (i + 1)).drop (i + 1 - w.toNat)).map price) w =
            Except.ok ((((td.take (i + 1)).drop (i + 1 - w.toNat)).map price).sum /
              (w : ℚ)) := by
          unfold compute_sma
          rw [if_neg (not_le.mpr hw), if_neg (by rw [hvals]; omega)]
          rw [hvals]
          simp
        rw [hsma]
        obtain ⟨t, hnt⟩ := next_trading_day_exists hsorted hidx hlast
        rw [hnt, ih hrest]
        have hdec : decisionAt td price w s =
            some { signal_date := s, trade_date := t, spy_close := price s,
                   sma_200 := (((td.take (i + 1)).drop
                       (i + 1 - w.toNat)).map price).sum / (w : ℚ),
                   target_asset := decide_target (price s)
                     ((((td.take (i + 1)).drop
                         (i + 1 - w.toNat)).map price).sum / (w : ℚ)) } := by
          unfold decisionAt
          rw [hidx, Option.some_bind, hnt, Option.some_bind,
            if_pos ⟨by omega, hlast⟩]
        rw [List.filterMap_cons_some hdec]

/-- C3: `make_trend_decisions` fails with `InvalidWindow` when `window ≤ 0`;
for a positive window over a strictly sorted calendar it emits exactly one
decision per month-end signal date whose 0-based calendar index `i` satisfies
`i + 1 ≥ window` and is not the last index (skipping all other month ends),
as described by `decisionAt` (SMA = arithmetic mean of the prices over the
`window` trading days ending at the signal date, observed close = price at
the signal date, trade date = next trading day after the signal date); and
the output is in `signal_date` order. -/
theorem make_trend_decisions_spec :
    (∀ (trading_days : List Dat) (price : Dat → ℚ) (window : Int),
      window ≤ 0 →
      make_trend_decisions trading_days price window =
        Except.error "window must be positive") ∧
    (∀ (trading_days : List Dat) (price : Dat → ℚ) (window : Int),
      0 < window → List.Sorted (· < ·) trading_days →
      make_trend_decisions trading_days price window =
        Except.ok ((month_end_signal_dates trading_days).filterMap
          (decisionAt trading_days price window))) ∧
    (∀ (trading_days : List Dat) (price : Dat → ℚ) (window : Int)
      (L : List TrendDecision),
      List.Sorted (· < ·) trading_days →
      make_trend_decisions trading_days price window = Except.ok L →
      List.Pairwise (fun a b => a.signal_date < b.signal_date) L) := by
  have hmain : ∀ (trading_days : List Dat) (price : Dat → ℚ) (window : Int),
      0 < window → List.Sorted (· < ·) trading_days →
      make_trend_decisions trading_days price window =
        Except.ok ((month_end_signal_dates trading_days).filterMap
          (decisionAt trading_days price window)) := by
    intro td price w hw hsorted
    unfold make_trend_decisions
    rw [if_neg (not_le.mpr hw)]
    exact mtdGo_eq_filterMap hw hsorted _
      fun s hsmem => (month_end_signal_dates_sublist td).subset hsmem
  refine ⟨fun td price w hw => ?_, hmain, fun td price w L hsorted hok => ?_⟩
  · unfold make_trend_decisions
    rw [if_pos hw]
  · by_cases hw : 0 < w
    · rw [hmain td price w hw hsorted] at hok
      have hL := Except.ok.inj hok
      subst hL
      have hsigsub : (((month_end_signal_dates td).filterMap
          (decisionAt td price w)).map (·.signal_date)).Sublist
          (month_end_signal_dates td) :=
        filterMap_signal_sublist (fun _ _ h => decisionAt_signal h) _
      have hpw : List.Pairwise (· < ·)
          (((month_end_signal_dates td).filterMap
            (decisionAt td price w)).map (·.signal_date)) :=
        List.Pairwise.sublist
          (hsigsub.trans (month_end_signal_dates_sublist td)) hsorted
      rw [List.pairwise_map] at hpw
      exact hpw
    · unfold make_trend_decisions at hok
      rw [if_pos (not_lt.mp hw)] at hok
      cases hok

/-- Witness for `make_trend_decisions_spec`: the positive-window and
sortedness hypotheses of its second conjunct discharged on a concrete
three-day calendar with window 2. -/
theorem make_trend_decisions_spec_witness :
    make_trend_decisions [⟨2024, 1, 30⟩, ⟨2024, 1, 31⟩, ⟨2024, 2, 1⟩]
        (fun d => (d.d : ℚ)) 2 =
      Except.ok
        ((month_end_signal_dates [⟨2024, 1, 30⟩, ⟨2024, 1, 31⟩, ⟨2024, 2, 1⟩]).filterMap
          (decisionAt [⟨2024, 1, 30⟩, ⟨2024, 1, 31⟩, ⟨2024, 2, 1⟩]
            (fun d => (d.d : ℚ)) 2)) :=
  make_trend_decisions_spec.2.1 _ _ 2 (by norm_num) (by decide)

end SentinelTrend
